import Mathlib

/-!
# Verification of the retail-forecast feature-construction engine

Shallow embedding of `feature_builder.py` (feature-construction engine) and the
date-range validation of the `/predict` handler in `app.py`.

Modelling conventions:
* Calendar dates are day numbers (`ℤ`, days since 1970-01-01); the civil-calendar
  conversions used by the calendar features follow the standard Gregorian
  `days_from_civil` / `civil_from_days` algorithms.
* pandas float64 values are modelled exactly: finite values as `ℚ`, plus the
  IEEE special values NaN / +inf / -inf as extra constructors of `EFloat`.
  Input quantities and prices are finite numbers (the dataset is a parsed CSV
  with numeric fields), so `Row` carries plain `ℚ` fields; NaN can only be
  produced by the statistic functions, which therefore return `EFloat` where
  the code can produce NaN.
* Exact rational arithmetic stands in for float arithmetic; no claim below
  depends on rounding, only on zero tests and NaN/inf propagation.
-/

unseal Rat.add Rat.mul Rat.sub Rat.inv

/-- IEEE-style extended value: a finite rational or one of the special values
NaN, +inf, -inf, as produced by pandas float64 operations. -/
inductive EFloat where
  | nan : EFloat
  | pinf : EFloat
  | ninf : EFloat
  | val : ℚ → EFloat
deriving DecidableEq, Repr

/-- `true` exactly on finite values (neither NaN nor an infinity). -/
def EFloat.isFin : EFloat → Bool
  | .val _ => true
  | _ => false

/-- IEEE division on extended values. Only the NaN/finite cases are reachable
in this development; the infinity rows follow the IEEE table (signed zeros are
not modelled, inputs here are never negative zero). -/
def EFloat.fdivE : EFloat → EFloat → EFloat
  | .nan, _ => .nan
  | _, .nan => .nan
  | .val x, .val y =>
      if y = 0 then (if x = 0 then .nan else if 0 < x then .pinf else .ninf)
      else .val (x / y)
  | .pinf, .val y => if 0 ≤ y then .pinf else .ninf
  | .ninf, .val y => if 0 ≤ y then .ninf else .pinf
  | .val _, .pinf => .val 0
  | .val _, .ninf => .val 0
  | _, _ => .nan

/-- IEEE addition of a finite rational to an extended value. -/
def EFloat.addQ : EFloat → ℚ → EFloat
  | .nan, _ => .nan
  | .pinf, _ => .pinf
  | .ninf, _ => .ninf
  | .val x, q => .val (x + q)

/-- One record of the historical table `daily.csv`: parsed date (day number),
`Product Category`, `Quantity`, `Price per Unit`.  The unused `Total Amount`
column is omitted (it is written once during horizon extension and never
read). -/
structure Row where
  date : ℤ
  category : String
  quantity : ℚ
  price : ℚ
deriving DecidableEq, Repr

/-! ## Civil calendar (pandas `Timestamp` accessors)

`daysFromCivil`/`civilFromDays` are the standard Gregorian conversion
algorithms between (year, month, day) and days since 1970-01-01,
using floor division throughout. -/

/-- Day number (days since 1970-01-01) of the civil date `y-m-d`. -/
def daysFromCivil (y m d : ℤ) : ℤ :=
  let y' := if m ≤ 2 then y - 1 else y
  let era := Int.fdiv y' 400
  let yoe := y' - era * 400
  let mp := Int.fmod (m + 9) 12
  let doy := Int.fdiv (153 * mp + 2) 5 + d - 1
  let doe := yoe * 365 + Int.fdiv yoe 4 - Int.fdiv yoe 100 + doy
  era * 146097 + doe - 719468

/-- Civil date `(year, month, day)` of a day number. -/
def civilFromDays (z : ℤ) : ℤ × ℤ × ℤ :=
  let z' := z + 719468
  let era := Int.fdiv z' 146097
  let doe := z' - era * 146097
  let yoe := Int.fdiv (doe - Int.fdiv doe 1460 + Int.fdiv doe 36524 - Int.fdiv doe 146096) 365
  let y := yoe + era * 400
  let doy := doe - (365 * yoe + Int.fdiv yoe 4 - Int.fdiv yoe 100)
  let mp := Int.fdiv (5 * doy + 2) 153
  let d := doy - Int.fdiv (153 * mp + 2) 5 + 1
  let m := mp + (if mp < 10 then 3 else -9)
  (if m ≤ 2 then y + 1 else y, m, d)

/-- `target_date.day` (day of month). -/
def dayOfMonth (z : ℤ) : ℤ := (civilFromDays z).2.2

/-- `target_date.month`. -/
def monthOfDate (z : ℤ) : ℤ := (civilFromDays z).2.1

/-- `target_date.dayofweek`: 0 = Monday … 6 = Sunday (pandas convention).
1970-01-01 (day 0) was a Thursday, i.e. 3. -/
def dayOfWeek (z : ℤ) : ℤ := Int.emod (z + 3) 7

/-- `target_date.isocalendar().week`: the ISO-8601 week number, computed from
the Thursday of the week containing `z`. -/
def isoWeek (z : ℤ) : ℤ :=
  let th := z + (3 - dayOfWeek z)
  let y := (civilFromDays th).1
  Int.fdiv (th - daysFromCivil y 1 1) 7 + 1

/-! ## Generic list helpers (pandas primitives) -/

/-- `pd.date_range(lo, hi, freq="D")` as a list of day numbers. -/
def dateRange (lo hi : ℤ) : List ℤ :=
  (List.range (hi + 1 - lo).toNat).map (fun (k : ℕ) => lo + (k : ℤ))

/-- Forward fill (`ffill`) with an incoming carry value. -/
def ffillFrom (carry : Option α) : List (Option α) → List (Option α)
  | [] => []
  | none :: xs => carry :: ffillFrom carry xs
  | some v :: xs => some v :: ffillFrom (some v) xs

/-- pandas `Series.ffill`: replace each missing entry by the last present
value before it. -/
def ffill (l : List (Option α)) : List (Option α) := ffillFrom none l

/-- pandas `Series.bfill`: replace each missing entry by the next present
value after it. -/
def bfill (l : List (Option α)) : List (Option α) := (ffillFrom none l.reverse).reverse

/-- The trailing `n` elements of a list (`Series.tail(n)` / the values a
length-`n` rolling window sees at the last position). -/
def tailTake (l : List α) (n : ℕ) : List α := l.drop (l.length - n)

/-- Arithmetic mean of a list of rationals (caller guarantees nonempty). -/
def listMean (l : List ℚ) : ℚ := l.sum / (l.length : ℚ)

/-- Sample variance with `ddof = 1` (caller guarantees length ≥ 2). -/
def sampleVariance (l : List ℚ) : ℚ :=
  (l.map (fun x => (x - listMean l) ^ 2)).sum / ((l.length : ℚ) - 1)

/-- Python negative indexing `series.iloc[-n]` (for `n = 0` Python reads
`iloc[0]`); out-of-range reads do not occur at the call sites. -/
def ilocNeg (s : List ℚ) (n : ℕ) : ℚ :=
  if n = 0 then s.getD 0 0 else s.getD (s.length - n) 0

/-! ## Statistic functions (`feature_builder.py` lines 69-89)

All operate on the quantity (resp. price) column of the trailing window,
oldest first.  `shift(1)` turns `s` into `[NaN, s₀, …, s_{len-2}]`; a trailing
`rolling(n, min_periods=1)` statistic at the last position therefore sees the
last `min(n, len-1)` elements of `s.dropLast` as its non-NaN sample, which is
`tailTake s.dropLast n`. -/

/-- `safe_lag` (lines 69-72): `series.iloc[-n]` behind the guard
`len(series) > n`, else `0.0`. -/
def safe_lag (s : List ℚ) (n : ℕ) : ℚ :=
  if n < s.length then ilocNeg s n else 0

/-- The value `series.shift(1).rolling(n, min_periods=1).mean().iloc[-1]`:
NaN when no non-NaN sample exists in the window (only possible when
`s.dropLast` contributes nothing), else the mean of the sample. -/
def rollShiftMean (s : List ℚ) (n : ℕ) : EFloat :=
  let w := tailTake s.dropLast n
  if w.isEmpty then .nan else .val (listMean w)

/-- `safe_roll_mean` (lines 74-77).  Note the code converts with `float(...)`
and has no NaN guard here, so a length-1 series yields NaN. -/
def safe_roll_mean (s : List ℚ) (n : ℕ) : EFloat :=
  if 1 ≤ s.length then rollShiftMean s n else .val 0

/-- The value `series.shift(1).rolling(n, min_periods=1).std().iloc[-1]`:
pandas sample std (`ddof = 1`) is NaN on fewer than two samples.  The IEEE
square root is modelled by the computable rational square root `Rat.sqrt`;
no claim in this development depends on the magnitude of a standard
deviation, only on the NaN fallback for short samples. -/
def rollShiftStd (s : List ℚ) (n : ℕ) : EFloat :=
  let w := tailTake s.dropLast n
  if w.length ≤ 1 then .nan else .val (Rat.sqrt (sampleVariance w))

/-- `safe_roll_std` (lines 79-83): the rolling std with the explicit
`pd.isna` guard mapping NaN to `0.0`, hence a genuine (finite) rational. -/
def safe_roll_std (s : List ℚ) (n : ℕ) : ℚ :=
  if 1 ≤ s.length then
    match rollShiftStd s n with
    | .val q => q
    | _ => 0
  else 0

/-- Exponentially weighted mean with `adjust=True` (pandas default): the
element `l[j]` (oldest first) carries weight `(1-a)^(len-1-j)`. -/
def ewmAdjustedMean (l : List ℚ) (a : ℚ) : ℚ :=
  let n := l.length
  (l.enum.map (fun p => (1 - a) ^ (n - 1 - p.1) * p.2)).sum /
    (l.enum.map (fun p => (1 - a) ^ (n - 1 - p.1))).sum

/-- `safe_ewm` (lines 85-89): `series.shift(1).ewm(alpha=alpha).mean().iloc[-1]`
with the `pd.isna` guard.  The shifted NaN head is excluded from the weighted
sums, so the value is the adjusted EWM of `s.dropLast` (NaN, hence `0.0`,
when that is empty). -/
def safe_ewm (s : List ℚ) (a : ℚ) : ℚ :=
  if 1 ≤ s.length then
    if s.dropLast.isEmpty then 0 else ewmAdjustedMean s.dropLast a
  else 0

/-- `price.pct_change(7).iloc[-1]` (line 103): pandas computes
`p.iloc[-1] / p.iloc[-1-n] - 1`, IEEE division (only evaluated under the
guard `len(price) > n`, so both positions exist; the price column never
contains NaN after series repair). -/
def pctChangeLast (p : List ℚ) (n : ℕ) : EFloat :=
  let b := p.getD (p.length - 1 - n) 0
  EFloat.fdivE (.val (p.getD (p.length - 1) 0 - b)) (.val b)

/-- The `"price pct change 7d"` entry of the feature dict (line 103),
including the final NaN sanitization of lines 120-123 (which replaces NaN by
`0.0` but lets infinities through, since `np.isnan` is false on them). -/
def sanE : EFloat → EFloat
  | .nan => .val 0
  | e => e

/-- `ratio_to_cat_28d` (lines 106-109):
`last_qty / (cat_mean_28d + 1e-6)` with IEEE semantics; `cat_mean_28d` is the
raw (unguarded) 28-day rolling mean, which is NaN on a length-1 window. -/
def ratioToCat28 (qty : List ℚ) : EFloat :=
  let cat_mean := if 1 ≤ qty.length then rollShiftMean qty 28 else .val 0
  let last_qty := if 1 ≤ qty.length then qty.getD (qty.length - 1) 0 else 0
  EFloat.fdivE (.val last_qty) (cat_mean.addQ (1 / 1000000))

/-! ## Error taxonomy

All three conditions raise `ValueError` in Python; they are distinguished by
their messages:
* `noHistory`   — `"No history for product '...'"` (line 37);
* `dupIndex`    — pandas `reindex` raises
  `"cannot reindex on an axis with duplicate labels"` when the per-category
  frame has two rows with the same date (line 11);
* `dateTooEarly` — `"target_date is earlier than available history"` (line 59);
* `emptyFrame`  — placeholder for `pd.date_range(NaT, NaT)` on an empty frame,
  unreachable from `build_features`, which checks emptiness first. -/
inductive FbError where
  | noHistory : FbError
  | dupIndex : FbError
  | dateTooEarly : FbError
  | emptyFrame : FbError
deriving DecidableEq, Repr

/-- Decidable equality of `Except` results (not provided by the library),
used to evaluate the embedded pipeline on concrete inputs. -/
instance {e a : Type} [DecidableEq e] [DecidableEq a] :
    DecidableEq (Except e a) := fun x y =>
  match x, y with
  | .error u, .error v =>
    if h : u = v then .isTrue (h ▸ rfl)
    else .isFalse fun hc => h (Except.error.inj hc)
  | .ok u, .ok v =>
    if h : u = v then .isTrue (h ▸ rfl)
    else .isFalse fun hc => h (Except.ok.inj hc)
  | .error _, .ok _ => .isFalse fun hc => Except.noConfusion hc
  | .ok _, .error _ => .isFalse fun hc => Except.noConfusion hc

/-! ## Series repair (`ensure_daily_index`, lines 7-21) -/

/-- Earliest date of a list of rows (`df.index.min()`); junk `0` on empty. -/
def minDate (rows : List Row) : ℤ := ((rows.map (·.date)).min?).getD 0

/-- Latest date of a list of rows (`df.index.max()`); junk `0` on empty. -/
def maxDate (rows : List Row) : ℤ := ((rows.map (·.date)).max?).getD 0

/-- Ordered insertion of a row into a date-sorted list. -/
def insertByDate (r : Row) : List Row → List Row
  | [] => [r]
  | x :: xs => if r.date ≤ x.date then r :: x :: xs else x :: insertByDate r xs

/-- `df.sort_values("Date")`, modelled as insertion sort by date.  pandas'
default quicksort is not stable, so no particular order among equal dates is
promised by the code; and the only frames that survive the subsequent
`reindex` have duplicate-free dates, on which every sort agrees.  The
sorting algorithm is therefore immaterial; insertion sort is chosen because
it is structurally recursive (hence computable by the kernel). -/
def sortByDate (rows : List Row) : List Row :=
  rows.foldr insertByDate []

/-- Reassemble the reindexed, filled columns into rows (`df.reset_index()`). -/
def zipCols : List ℤ → List String → List ℚ → List ℚ → List Row
  | d :: ds, c :: cs, q :: qs, p :: ps => ⟨d, c, q, p⟩ :: zipCols ds cs qs ps
  | _, _, _, _ => []

/-- `ensure_daily_index` (lines 7-21): sort by date, reindex onto the full
daily range from the earliest to the latest observed date, forward/backward
fill `Product Category`, zero-fill `Quantity`, and forward/backward/zero fill
`Price per Unit`.

`reindex` onto the (duplicate-free) daily range raises when the frame's own
date index has duplicate labels; this is the `dupIndex` error.  Duplicate
freedom of a list of dates is invariant under sorting, so it is checked on
the incoming rows.  The minimum and maximum of the date index likewise do not
depend on the sort order.  For a duplicate-free index, the row `reindex`
places at day `d` is the unique original row with date `d`, found here by
`find?` over the sorted frame.  The category column has no final `fillna`
(the code leaves an all-NaN category column alone); that situation cannot
arise for a nonempty frame, and the `getD ""` default below is dead code. -/
def ediRows (rows : List Row) : List Row :=
  let sorted := sortByDate rows
  let ds := dateRange (minDate rows) (maxDate rows)
  let cells := ds.map (fun d => sorted.find? (fun r => r.date == d))
  let cats := (bfill (ffill (cells.map (Option.map (·.category))))).map (fun c => c.getD "")
  let qtys := cells.map (fun c => match c with | some r => r.quantity | none => 0)
  let prs := (bfill (ffill (cells.map (Option.map (·.price))))).map (fun c => c.getD 0)
  zipCols ds cats qtys prs

/-- The fallible wrapper around `ediRows`: empty frames and duplicate date
labels raise, everything else reindexes and fills. -/
def ensure_daily_index (rows : List Row) : Except FbError (List Row) :=
  match rows with
  | [] => .error .emptyFrame
  | _ :: _ =>
    if ((rows.map (·.date)).Nodup) then .ok (ediRows rows)
    else .error .dupIndex

/-! ## Horizon extension (`build_features` lines 42-54) -/

/-- `prod_hist["Price per Unit"].iloc[-1]` if the price column is not all-NaN,
else `0` (line 51).  After `ensure_daily_index` the price column contains no
NaN at all (final `fillna(0)`), so for the nonempty series this is simply the
last price; a series that had no price data has every price filled to `0`,
so the two branches agree. -/
def lastPriceD (s : List Row) : ℚ :=
  match s.getLast? with
  | some r => r.price
  | none => 0

/-- The synthesized tail rows, one per day from the day after the series'
last date through the target date (lines 45-53): `Quantity = 0`,
`Price per Unit` carried forward. -/
def extTail (s : List Row) (product : String) (target : ℤ) : List Row :=
  (dateRange (maxDate s + 1) target).map (fun d => ⟨d, product, 0, lastPriceD s⟩)

/-- Horizon extension (lines 42-54): append the synthesized tail when the
target date lies beyond the series' last date (the inner emptiness guard on
`extra_idx` mirrors line 46). -/
def extendSeries (s : List Row) (product : String) (target : ℤ) : List Row :=
  if maxDate s < target then
    if 0 < (extTail s product target).length then s ++ extTail s product target else s
  else s

/-! ## Feature record (`build_features` lines 92-118)

Field ↔ feature-name correspondence:
`lag1/lag7/lag28` ↔ `Quantity_lag_{1,7,28}`,
`mean7/mean14/mean28` ↔ `Quantity_roll_mean_{7,14,28}`,
`std7/std14/std28` ↔ `Quantity_roll_std_{7,14,28}`,
`ewm03` ↔ `Quantity_ewm_0.3`, `pct7` ↔ `price pct change 7d`,
`ratio28` ↔ `ratio_to_cat_28d`, and the five calendar entries.
Fields whose producing expression ends in a `pd.isna` guard (or reads a plain
series element) are plain rationals; the three raw rolling means, the price
percent change and the 28-day ratio can carry NaN or an infinity and are
`EFloat`. -/
structure Feats where
  lag1 : ℚ
  lag7 : ℚ
  lag28 : ℚ
  mean7 : EFloat
  mean14 : EFloat
  mean28 : EFloat
  std7 : ℚ
  std14 : ℚ
  std28 : ℚ
  ewm03 : ℚ
  pct7 : EFloat
  ratio28 : EFloat
  day : ℤ
  month : ℤ
  dayofweek : ℤ
  is_weekend : ℤ
  week_of_year : ℤ
deriving DecidableEq, Repr

/-- The feature dictionary as assembled in lines 92-118, before the final
NaN sweep. -/
def rawFeats (qty price : List ℚ) (target : ℤ) : Feats where
  lag1 := safe_lag qty 1
  lag7 := safe_lag qty 7
  lag28 := safe_lag qty 28
  mean7 := safe_roll_mean qty 7
  mean14 := safe_roll_mean qty 14
  mean28 := safe_roll_mean qty 28
  std7 := safe_roll_std qty 7
  std14 := safe_roll_std qty 14
  std28 := safe_roll_std qty 28
  ewm03 := safe_ewm qty (3 / 10)
  pct7 := if 7 < price.length then pctChangeLast price 7 else .val 0
  ratio28 := ratioToCat28 qty
  day := dayOfMonth target
  month := monthOfDate target
  dayofweek := dayOfWeek target
  is_weekend := if dayOfWeek target = 5 ∨ dayOfWeek target = 6 then 1 else 0
  week_of_year := isoWeek target

/-- The final sweep of lines 120-123: every float value that is NaN becomes
`0.0`.  The `ℚ`- and `ℤ`-valued fields are never NaN (`None` does not occur:
every entry is assigned a number), so only the `EFloat` fields change. -/
def sanitizeFeats (f : Feats) : Feats :=
  { f with
    mean7 := sanE f.mean7
    mean14 := sanE f.mean14
    mean28 := sanE f.mean28
    pct7 := sanE f.pct7
    ratio28 := sanE f.ratio28 }

/-- How many historical days the trailing window keeps (line 5). -/
def HISTORY_DAYS : ℕ := 60

/-- `build_features` (lines 23-125): filter the history to the product,
repair the series to a continuous daily index, extend it to the target date
if needed, select the trailing window of `HISTORY_DAYS + 1` rows ending at
the target date, and assemble the sanitized feature record. -/
def build_features (history : List Row) (product : String) (target : ℤ) :
    Except FbError Feats :=
  let prod_hist := history.filter (fun r => r.category == product)
  if prod_hist.isEmpty then .error .noHistory
  else
    match ensure_daily_index prod_hist with
    | .error e => .error e
    | .ok repaired =>
      let ph := extendSeries repaired product target
      let sel := ph.filter (fun r => decide (r.date ≤ target))
      if sel.isEmpty then .error .dateTooEarly
      else
        let recent := tailTake sel (HISTORY_DAYS + 1)
        let qty := recent.map (·.quantity)
        let price := recent.map (·.price)
        .ok (sanitizeFeats (rawFeats qty price target))

/-! ## The `/predict` handler's date validation (`app.py` lines 38-79)

Only the numeric validation feeding `build_features` is modelled; the JSON
marshaling, the "missing field" and date-parsing rejections (all also HTTP
400) and the downstream model invocation are outside the embedding.  Every
`.error` result below is an HTTP 400 response. -/
inductive ApiError where
  | badNDays : ApiError
  | badCategory : ApiError
  | outOfRange : ApiError
deriving DecidableEq, Repr

/-- The validation and target-date enumeration of `/predict` (lines 46-76):
reject `n_days` outside `[1, 365]`, unknown categories, and start/end dates
outside `[MIN_DATE, MAX_DATE]`; otherwise `build_features` is called once per
day from `start` through `start + (n_days - 1)`. -/
def predictTargets (minD maxD : ℤ) (validCats : List String) (product : String)
    (start : ℤ) (nDays : ℤ) : Except ApiError (List ℤ) :=
  if nDays ≤ 0 ∨ 365 < nDays then .error .badNDays
  else if ¬ product ∈ validCats then .error .badCategory
  else
    let endD := start + (nDays - 1)
    if ¬ (minD ≤ start ∧ start ≤ maxD ∧ minD ≤ endD ∧ endD ≤ maxD) then
      .error .outOfRange
    else .ok ((List.range nDays.toNat).map (fun (o : ℕ) => start + (o : ℤ)))

/-! ## Basic lemmas about the pandas primitives -/

theorem length_dateRange (lo hi : ℤ) :
    (dateRange lo hi).length = (hi + 1 - lo).toNat := by
  simp [dateRange]

theorem mem_dateRange {lo hi d : ℤ} : d ∈ dateRange lo hi ↔ lo ≤ d ∧ d ≤ hi := by
  simp only [dateRange, List.mem_map, List.mem_range]
  constructor
  · rintro ⟨k, hk, rfl⟩
    omega
  · intro h
    exact ⟨(d - lo).toNat, by omega, by omega⟩

theorem chain'_dateRange (lo hi : ℤ) :
    List.Chain' (fun a b => a + 1 = b) (dateRange lo hi) := by
  rw [dateRange, List.chain'_map]
  rcases n_eq : (hi + 1 - lo).toNat with _ | n
  · simp
  · rw [List.chain'_range_succ]
    intro m _
    push_cast
    ring

theorem length_ffillFrom (c : Option α) (l : List (Option α)) :
    (ffillFrom c l).length = l.length := by
  induction l generalizing c with
  | nil => rfl
  | cons x xs ih => cases x <;> simp [ffillFrom, ih]

theorem length_ffill (l : List (Option α)) : (ffill l).length = l.length :=
  length_ffillFrom none l

theorem length_bfill (l : List (Option α)) : (bfill l).length = l.length := by
  simp [bfill, length_ffillFrom]

theorem zipCols_map_date (ds : List ℤ) (cs : List String) (qs ps : List ℚ)
    (h1 : cs.length = ds.length) (h2 : qs.length = ds.length)
    (h3 : ps.length = ds.length) :
    (zipCols ds cs qs ps).map (·.date) = ds := by
  induction ds generalizing cs qs ps with
  | nil => cases cs <;> cases qs <;> cases ps <;> rfl
  | cons d ds ih =>
    cases cs with
    | nil => simp at h1
    | cons c cs =>
      cases qs with
      | nil => simp at h2
      | cons q qs =>
        cases ps with
        | nil => simp at h3
        | cons p ps =>
          simp only [zipCols, List.map_cons, List.length_cons] at *
          exact congrArg (d :: ·) (ih cs qs ps (by omega) (by omega) (by omega))

theorem zipCols_map_qty (ds : List ℤ) (cs : List String) (qs ps : List ℚ)
    (h1 : cs.length = ds.length) (h2 : qs.length = ds.length)
    (h3 : ps.length = ds.length) :
    (zipCols ds cs qs ps).map (·.quantity) = qs := by
  induction ds generalizing cs qs ps with
  | nil =>
    cases cs <;> cases qs <;> cases ps <;> first | rfl | simp_all
  | cons d ds ih =>
    cases cs with
    | nil => simp at h1
    | cons c cs =>
      cases qs with
      | nil => simp at h2
      | cons q qs =>
        cases ps with
        | nil => simp at h3
        | cons p ps =>
          simp only [zipCols, List.map_cons, List.length_cons] at *
          exact congrArg (q :: ·) (ih cs qs ps (by omega) (by omega) (by omega))

theorem mem_insertByDate {r x : Row} {l : List Row} :
    x ∈ insertByDate r l ↔ x = r ∨ x ∈ l := by
  induction l with
  | nil => simp [insertByDate]
  | cons y ys ih =>
    rw [insertByDate]
    split
    · simp
    · simp only [List.mem_cons, ih]
      tauto

theorem mem_sortByDate {rows : List Row} {r : Row} :
    r ∈ sortByDate rows ↔ r ∈ rows := by
  rw [sortByDate]
  induction rows with
  | nil => simp
  | cons x xs ih =>
    simp only [List.foldr_cons, mem_insertByDate, List.mem_cons, ih]

theorem minDate_le {rows : List Row} {r : Row} (h : r ∈ rows) :
    minDate rows ≤ r.date := by
  have hmem : r.date ∈ rows.map (·.date) := List.mem_map_of_mem _ h
  obtain ⟨a, ha⟩ := Option.isSome_iff_exists.mp (List.isSome_min?_of_mem hmem)
  have hb := (List.le_min?_iff (fun _ _ _ => le_min_iff) ha).mp le_rfl
  simpa [minDate, ha] using hb _ hmem

theorem le_maxDate {rows : List Row} {r : Row} (h : r ∈ rows) :
    r.date ≤ maxDate rows := by
  have hmem : r.date ∈ rows.map (·.date) := List.mem_map_of_mem _ h
  obtain ⟨a, ha⟩ := Option.isSome_iff_exists.mp (List.isSome_max?_of_mem hmem)
  have hb := (List.max?_le_iff (fun _ _ _ => max_le_iff) ha).mp le_rfl
  simpa [maxDate, ha] using hb _ hmem

theorem minDate_mem {rows : List Row} (h : rows ≠ []) :
    ∃ r ∈ rows, r.date = minDate rows := by
  have hmap : rows.map (·.date) ≠ [] := by simpa using h
  obtain ⟨a, ha⟩ :=
    Option.ne_none_iff_exists'.mp (mt List.min?_eq_none_iff.mp hmap)
  obtain ⟨r, hr, hrd⟩ := List.mem_map.mp (List.min?_mem min_choice ha)
  exact ⟨r, hr, by simp [minDate, ha, hrd]⟩

theorem maxDate_mem {rows : List Row} (h : rows ≠ []) :
    ∃ r ∈ rows, r.date = maxDate rows := by
  have hmap : rows.map (·.date) ≠ [] := by simpa using h
  obtain ⟨a, ha⟩ :=
    Option.ne_none_iff_exists'.mp (mt List.max?_eq_none_iff.mp hmap)
  obtain ⟨r, hr, hrd⟩ := List.mem_map.mp (List.max?_mem max_choice ha)
  exact ⟨r, hr, by simp [maxDate, ha, hrd]⟩

theorem minDate_le_maxDate {rows : List Row} (h : rows ≠ []) :
    minDate rows ≤ maxDate rows := by
  obtain ⟨r, hr, hrd⟩ := minDate_mem h
  exact hrd ▸ le_maxDate hr

/-! ## Structure of the repaired series -/

theorem ediRows_map_date (rows : List Row) :
    (ediRows rows).map (·.date) = dateRange (minDate rows) (maxDate rows) := by
  unfold ediRows
  apply zipCols_map_date <;> simp [length_bfill, length_ffill]

theorem ediRows_map_qty (rows : List Row) :
    (ediRows rows).map (·.quantity) =
      (dateRange (minDate rows) (maxDate rows)).map
        (fun d =>
          match (sortByDate rows).find? (fun r => r.date == d) with
          | some r => r.quantity
          | none => 0) := by
  unfold ediRows
  rw [zipCols_map_qty _ _ _ _ (by simp [length_bfill, length_ffill])
    (by simp) (by simp [length_bfill, length_ffill]), List.map_map]
  rfl

theorem ediRows_qty_nonneg {rows : List Row}
    (h : ∀ r ∈ rows, 0 ≤ r.quantity) {r : Row} (hr : r ∈ ediRows rows) :
    0 ≤ r.quantity := by
  have hq : r.quantity ∈ (ediRows rows).map (·.quantity) :=
    List.mem_map_of_mem _ hr
  rw [ediRows_map_qty] at hq
  obtain ⟨d, _, hd⟩ := List.mem_map.mp hq
  rcases hf : (sortByDate rows).find? (fun r => r.date == d) with _ | r₀
  · rw [hf] at hd
    exact le_of_eq hd
  · rw [hf] at hd
    exact le_of_le_of_eq
      (h r₀ (mem_sortByDate.mp (List.mem_of_find?_eq_some hf))) hd

theorem edi_eq_ok {rows : List Row} (hne : rows ≠ [])
    (hnd : (rows.map (·.date)).Nodup) :
    ensure_daily_index rows = .ok (ediRows rows) := by
  cases rows with
  | nil => exact absurd rfl hne
  | cons x xs => exact if_pos hnd

theorem edi_eq_error_dup {rows : List Row} (hne : rows ≠ [])
    (hnd : ¬ (rows.map (·.date)).Nodup) :
    ensure_daily_index rows = .error .dupIndex := by
  cases rows with
  | nil => exact absurd rfl hne
  | cons x xs => exact if_neg hnd

theorem edi_ok_elim {rows s : List Row}
    (h : ensure_daily_index rows = .ok s) : s = ediRows rows := by
  cases rows with
  | nil => simp [ensure_daily_index] at h
  | cons x xs =>
    rw [ensure_daily_index] at h
    split at h
    · exact (Except.ok.inj h).symm
    · simp at h

theorem min?_dateRange {lo hi : ℤ} (hle : lo ≤ hi) :
    (dateRange lo hi).min? = some lo := by
  have hne : dateRange lo hi ≠ [] := by
    intro h0
    have := mem_dateRange.mpr ⟨le_rfl, hle⟩
    rw [h0] at this
    exact absurd this (List.not_mem_nil lo)
  obtain ⟨a, ha⟩ := Option.ne_none_iff_exists'.mp (mt List.min?_eq_none_iff.mp hne)
  have h1 : lo ≤ a := (mem_dateRange.mp (List.min?_mem min_choice ha)).1
  have h2 : a ≤ lo :=
    (List.le_min?_iff (fun _ _ _ => le_min_iff) ha).mp le_rfl _
      (mem_dateRange.mpr ⟨le_rfl, hle⟩)
  rw [ha, le_antisymm h2 h1]

theorem max?_dateRange {lo hi : ℤ} (hle : lo ≤ hi) :
    (dateRange lo hi).max? = some hi := by
  have hne : dateRange lo hi ≠ [] := by
    intro h0
    have := mem_dateRange.mpr ⟨hle, le_rfl⟩
    rw [h0] at this
    exact absurd this (List.not_mem_nil hi)
  obtain ⟨a, ha⟩ := Option.ne_none_iff_exists'.mp (mt List.max?_eq_none_iff.mp hne)
  have h1 : a ≤ hi := (mem_dateRange.mp (List.max?_mem max_choice ha)).2
  have h2 : hi ≤ a :=
    (List.max?_le_iff (fun _ _ _ => max_le_iff) ha).mp le_rfl _
      (mem_dateRange.mpr ⟨hle, le_rfl⟩)
  rw [ha, le_antisymm h1 h2]

theorem maxDate_of_map_date {s : List Row} {lo hi : ℤ} (hle : lo ≤ hi)
    (h : s.map (·.date) = dateRange lo hi) : maxDate s = hi := by
  rw [maxDate, h, max?_dateRange hle]
  rfl

theorem minDate_of_map_date {s : List Row} {lo hi : ℤ} (hle : lo ≤ hi)
    (h : s.map (·.date) = dateRange lo hi) : minDate s = lo := by
  rw [minDate, h, min?_dateRange hle]
  rfl

/-! ## Structure of the extended series -/

theorem extendSeries_eq_of_le {s : List Row} {p : String} {t : ℤ}
    (h : t ≤ maxDate s) : extendSeries s p t = s := by
  rw [extendSeries, if_neg (not_lt.mpr h)]

theorem length_extTail (s : List Row) (p : String) (t : ℤ) :
    (extTail s p t).length = (t - maxDate s).toNat := by
  rw [extTail, List.length_map, length_dateRange]
  omega

theorem extTail_map_date (s : List Row) (p : String) (t : ℤ) :
    (extTail s p t).map (·.date) = dateRange (maxDate s + 1) t := by
  rw [extTail, List.map_map]
  exact List.map_id _

theorem extendSeries_eq_append {s : List Row} {p : String} {t : ℤ}
    (h : maxDate s < t) : extendSeries s p t = s ++ extTail s p t := by
  rw [extendSeries, if_pos h, if_pos]
  rw [length_extTail]
  omega

theorem extTail_fields {s : List Row} {p : String} {t : ℤ} :
    ∀ r ∈ extTail s p t, r.quantity = 0 ∧ r.price = lastPriceD s := by
  intro r hr
  obtain ⟨d, _, rfl⟩ := List.mem_map.mp hr
  exact ⟨rfl, rfl⟩

theorem extendSeries_map_qty {s : List Row} {p : String} {t : ℤ}
    (h : maxDate s < t) :
    (extendSeries s p t).map (·.quantity) =
      s.map (·.quantity) ++ List.replicate (t - maxDate s).toNat 0 := by
  rw [extendSeries_eq_append h, List.map_append]
  congr 1
  rw [extTail, List.map_map]
  have : ((·.quantity) ∘ fun d => (⟨d, p, 0, lastPriceD s⟩ : Row)) =
      Function.const ℤ (0 : ℚ) := rfl
  rw [this, List.map_const, length_dateRange]
  congr 1
  omega

theorem subset_extendSeries (s : List Row) (p : String) (t : ℤ) :
    s ⊆ extendSeries s p t := by
  rw [extendSeries]
  split
  · split
    · exact List.subset_append_left _ _
    · exact List.Subset.refl _
  · exact List.Subset.refl _

theorem extendSeries_qty_nonneg {s : List Row} {p : String} {t : ℤ}
    (h : ∀ r ∈ s, 0 ≤ r.quantity) :
    ∀ r ∈ extendSeries s p t, 0 ≤ r.quantity := by
  intro r hr
  rw [extendSeries] at hr
  split at hr
  · split at hr
    · rcases List.mem_append.mp hr with hl | hrt
      · exact h r hl
      · exact le_of_eq (extTail_fields r hrt).1.symm
    · exact h r hr
  · exact h r hr

/-! ## Unfolding `build_features` -/

theorem bf_cases {h : List Row} {p : String} {t : ℤ}
    (hne : h.filter (fun r => r.category == p) ≠ [])
    (hnd : ((h.filter (fun r => r.category == p)).map (·.date)).Nodup) :
    build_features h p t =
      (let sel := (extendSeries (ediRows (h.filter (fun r => r.category == p))) p t).filter
          (fun r => decide (r.date ≤ t))
       if sel.isEmpty then .error .dateTooEarly
       else
         let recent := tailTake sel (HISTORY_DAYS + 1)
         .ok (sanitizeFeats (rawFeats (recent.map (·.quantity)) (recent.map (·.price)) t))) := by
  have h1 : (h.filter (fun r => r.category == p)).isEmpty = false :=
    List.isEmpty_eq_false.mpr hne
  simp only [build_features, h1, Bool.false_eq_true, if_false, edi_eq_ok hne hnd]

theorem bf_ok_elim {h : List Row} {p : String} {t : ℤ} {f : Feats}
    (hok : build_features h p t = .ok f) :
    ∃ sel : List Row,
      sel ⊆ extendSeries (ediRows (h.filter (fun r => r.category == p))) p t ∧
      f = sanitizeFeats (rawFeats ((tailTake sel (HISTORY_DAYS + 1)).map (·.quantity))
        ((tailTake sel (HISTORY_DAYS + 1)).map (·.price)) t) := by
  rw [build_features] at hok
  split at hok
  · exact absurd hok (by simp)
  · split at hok
    · exact absurd hok (by simp)
    · next repaired hE =>
      dsimp only at hok
      split at hok
      · exact absurd hok (by simp)
      · refine ⟨(extendSeries repaired p t).filter (fun r => decide (r.date ≤ t)), ?_, ?_⟩
        · rw [edi_ok_elim hE]
          exact List.filter_subset' _
        · exact (Except.ok.inj hok).symm

/-! ## Claim theorems: statistic functions (C1, C4, C2) -/

/-- The sanitized `"price pct change 7d"` feature as a function of the price
window: line 103 composed with the NaN sweep of lines 120-123 (the `pct7`
field of the final record factors through this definitionally). -/
def pctFeature (price : List ℚ) : EFloat :=
  sanE (if 7 < price.length then pctChangeLast price 7 else .val 0)

theorem pct7_eq_pctFeature (qty price : List ℚ) (t : ℤ) :
    (sanitizeFeats (rawFeats qty price t)).pct7 = pctFeature price := rfl

theorem sanE_ne_nan (e : EFloat) : sanE e ≠ .nan := by
  cases e <;> simp [sanE]

/-- **C1** (code bug, evaluated at the failing input).  On the quantity
window `[4, 9, 7]` the code's `safe_lag(series, 1)` returns `7` — the most
recent value itself (`iloc[-1]`) — whereas the quantity one day before the
most recent entry, at position `length - 1 - 1`, is `9`.  The guard
`len(series) > n` is exactly the guard a `length - 1 - n` read needs (an
`iloc[-n]` read only needs `len ≥ n`), the feature is named
`Quantity_lag_n`, and every other statistic excludes the most recent entry
via `shift(1)`; the `iloc[-n]` read (instead of `iloc[-(n+1)]`) leaks the
target-day quantity into the feature vector. -/
theorem safe_lag_reads_one_position_late :
    safe_lag [4, 9, 7] 1 = 7 ∧ [(4 : ℚ), 9, 7].getD (3 - 1 - 1) 0 = 9 ∧
    safe_lag [4, 9, 7] 1 ≠ [(4 : ℚ), 9, 7].getD (3 - 1 - 1) 0 := by
  decide

/-- **C4 counterexample.**  On the quantity window `[5, 3]` — exactly one
value precedes the latest entry — the rolling-mean statistic function
returns that value `5.0`, not `0.0` as claimed. -/
theorem roll_mean_len2_counterexample :
    safe_roll_mean [5, 3] 7 = .val 5 ∧ safe_roll_mean [5, 3] 7 ≠ .val 0 := by
  decide

/-- **C4 (amended).**  For every window size `n ≥ 1` (so in particular 7, 14
and 28): `safe_roll_std` returns `0.0` on windows of length 0, 1 and 2 (its
`pd.isna` guard maps the undefined sample deviation to `0.0`), while
`safe_roll_mean` returns `0.0` only on the empty window; on a length-1
window it returns NaN (which only the later record-level sanitization turns
into `0.0`), and on a length-2 window it returns the lone preceding value,
not `0.0`. -/
theorem roll_short_window_spec (a b : ℚ) (n : ℕ) (hn : 1 ≤ n) :
    safe_roll_mean ([] : List ℚ) n = .val 0 ∧
    safe_roll_mean [a] n = .nan ∧
    safe_roll_mean [a, b] n = .val a ∧
    safe_roll_std ([] : List ℚ) n = 0 ∧
    safe_roll_std [a] n = 0 ∧
    safe_roll_std [a, b] n = 0 := by
  have h0 : 1 - n = 0 := by omega
  refine ⟨by simp [safe_roll_mean], ?_, ?_, by simp [safe_roll_std], ?_, ?_⟩
  · simp [safe_roll_mean, rollShiftMean, tailTake]
  · simp [safe_roll_mean, rollShiftMean, tailTake, h0, listMean]
  · simp [safe_roll_std, rollShiftStd, tailTake]
  · simp [safe_roll_std, rollShiftStd, tailTake, h0]

theorem roll_short_window_spec_witness :
    safe_roll_mean ([] : List ℚ) 7 = .val 0 ∧
    safe_roll_mean [(5 : ℚ)] 7 = .nan ∧
    safe_roll_mean [(5 : ℚ), 3] 7 = .val 5 ∧
    safe_roll_std ([] : List ℚ) 7 = 0 ∧
    safe_roll_std [(5 : ℚ)] 7 = 0 ∧
    safe_roll_std [(5 : ℚ), 3] 7 = 0 :=
  roll_short_window_spec 5 3 7 (by decide)

/-- **C2 counterexample.**  A category whose recorded unit price was `0`
seven days before the target and `5` on the target day: the repaired price
window is `[0, 0, 0, 0, 0, 0, 0, 5]`, the percent-change denominator is
exactly `0`, and the returned feature value is `+Infinity` (the `np.isnan`
sweep does not catch infinities), not the claimed `0.0`. -/
theorem pct_zero_denominator_inf :
    (build_features [⟨0, "A", 1, 0⟩, ⟨7, "A", 2, 5⟩] "A" 7).toOption.map
      (fun f => f.pct7) = some .pinf := by
  decide

/-- **C2 (amended).**  The sanitized `"price pct change 7d"` feature equals
`(latest - value_7_back) / value_7_back` whenever at least 8 values are
available and the denominator `value_7_back` is nonzero, and equals `0.0`
when fewer than 8 values are available.  When the denominator is exactly
zero the feature is `0.0` only if the latest value is also zero (the NaN
case); for a nonzero latest value it is `+Infinity` (resp. `-Infinity`),
which survives the NaN-only sanitization. -/
theorem pctFeature_spec (p : List ℚ) :
    (p.length ≤ 7 → pctFeature p = .val 0) ∧
    (7 < p.length →
      (p.getD (p.length - 8) 0 ≠ 0 →
        pctFeature p =
          .val ((p.getD (p.length - 1) 0 - p.getD (p.length - 8) 0) /
            p.getD (p.length - 8) 0)) ∧
      (p.getD (p.length - 8) 0 = 0 → p.getD (p.length - 1) 0 = 0 →
        pctFeature p = .val 0) ∧
      (p.getD (p.length - 8) 0 = 0 → 0 < p.getD (p.length - 1) 0 →
        pctFeature p = .pinf) ∧
      (p.getD (p.length - 8) 0 = 0 → p.getD (p.length - 1) 0 < 0 →
        pctFeature p = .ninf)) := by
  have h18 : p.length - 1 - 7 = p.length - 8 := by omega
  constructor
  · intro h7
    rw [pctFeature, if_neg (by omega)]
    rfl
  · intro h7
    refine ⟨?_, ?_, ?_, ?_⟩
    · intro hb
      rw [pctFeature, if_pos h7, pctChangeLast, h18]
      simp only [EFloat.fdivE]
      rw [if_neg hb]
      rfl
    · intro hb ha
      rw [pctFeature, if_pos h7, pctChangeLast, h18]
      simp only [EFloat.fdivE]
      rw [if_pos hb, if_pos (by rw [ha, hb, sub_zero])]
      rfl
    · intro hb ha
      rw [pctFeature, if_pos h7, pctChangeLast, h18]
      simp only [EFloat.fdivE]
      rw [if_pos hb, if_neg (by rw [hb, sub_zero]; exact ne_of_gt ha),
        if_pos (by rw [hb, sub_zero]; exact ha)]
      rfl
    · intro hb ha
      rw [pctFeature, if_pos h7, pctChangeLast, h18]
      simp only [EFloat.fdivE]
      rw [if_pos hb, if_neg (by rw [hb, sub_zero]; exact ne_of_lt ha),
        if_neg (by rw [hb, sub_zero]; exact not_lt.mpr (le_of_lt ha))]
      rfl

theorem pctFeature_spec_witness :
    pctFeature [1, 1, 1, 1, 2, 1, 1, 3] = .val 2 := by
  have hw := ((pctFeature_spec [1, 1, 1, 1, 2, 1, 1, 3]).2 (by decide)).1 (by decide)
  rw [hw]
  decide

/-! ## Claim theorems: horizon extension and series repair (C7, C6) -/

theorem lastPriceD_eq_zero {s : List Row} (h : ∀ r ∈ s, r.price = 0) :
    lastPriceD s = 0 := by
  rw [lastPriceD]
  rcases hg : s.getLast? with _ | r
  · rfl
  · exact h r (List.mem_of_getLast?_eq_some hg)

/-- **C7.**  Horizon Extension is the identity when the target date does not
exceed the series' last date; otherwise it appends the synthesized tail:
exactly one row per day from `last_date + 1` through `target_date`
inclusive, each carrying quantity `0` and the series' last unit price (which
is `0` whenever the series has no price data, since repair fills an all-NaN
price column with zeros).  The quantity column of the extended series is the
original quantity column followed by the synthesized zeros, so every lag or
rolling statistic computed on the extended window sees those zeros. -/
theorem extendSeries_horizon (s : List Row) (p : String) (t : ℤ) :
    (t ≤ maxDate s → extendSeries s p t = s) ∧
    (maxDate s < t →
      extendSeries s p t = s ++ extTail s p t ∧
      (extTail s p t).map (·.date) = dateRange (maxDate s + 1) t ∧
      (∀ r ∈ extTail s p t, r.quantity = 0 ∧ r.price = lastPriceD s) ∧
      ((∀ r ∈ s, r.price = 0) → ∀ r ∈ extTail s p t, r.price = 0) ∧
      (extendSeries s p t).map (·.quantity) =
        s.map (·.quantity) ++ List.replicate (t - maxDate s).toNat 0) := by
  refine ⟨extendSeries_eq_of_le, fun hlt =>
    ⟨extendSeries_eq_append hlt, extTail_map_date s p t, extTail_fields, ?_,
      extendSeries_map_qty hlt⟩⟩
  intro h0 r hr
  rw [(extTail_fields r hr).2, lastPriceD_eq_zero h0]

theorem extendSeries_horizon_witness :
    extendSeries [⟨0, "A", 2, 3⟩] "A" 0 = [⟨0, "A", 2, 3⟩] ∧
    extendSeries [⟨0, "A", 2, 3⟩] "A" 2 =
      [⟨0, "A", 2, 3⟩, ⟨1, "A", 0, 3⟩, ⟨2, "A", 0, 3⟩] := by
  constructor
  · exact (extendSeries_horizon [⟨0, "A", 2, 3⟩] "A" 0).1 (by decide)
  · have hw := (extendSeries_horizon [⟨0, "A", 2, 3⟩] "A" 2).2 (by decide)
    rw [hw.1]
    decide

/-- **C6.**  For a non-empty per-category input on which Series Repair
succeeds, the repaired series covers exactly the calendar-day range from the
earliest to the latest observed date: its date column is the full daily
range, consecutive dates differ by exactly one day (strictly increasing, no
gaps, one row per day), and its length is `(end - start).days + 1`.
Quantities and prices of the output are total by construction (`fillna`
leaves no missing values; the output rows carry plain numbers). -/
theorem series_repair_continuous {rows s : List Row}
    (hne : rows ≠ []) (hok : ensure_daily_index rows = .ok s) :
    ∃ lo hi : ℤ,
      (∃ r ∈ rows, r.date = lo) ∧ (∃ r ∈ rows, r.date = hi) ∧
      (∀ r ∈ rows, lo ≤ r.date ∧ r.date ≤ hi) ∧
      s.map (·.date) = dateRange lo hi ∧
      s.length = (hi - lo).toNat + 1 ∧
      List.Chain' (fun a b => a.date + 1 = b.date) s := by
  obtain rfl := edi_ok_elim hok
  refine ⟨minDate rows, maxDate rows, minDate_mem hne, maxDate_mem hne,
    fun r hr => ⟨minDate_le hr, le_maxDate hr⟩, ediRows_map_date rows, ?_, ?_⟩
  · have hlen : (ediRows rows).length = ((ediRows rows).map (·.date)).length :=
      (List.length_map _ _).symm
    rw [hlen, ediRows_map_date rows, length_dateRange]
    have := minDate_le_maxDate hne
    omega
  · have hc := chain'_dateRange (minDate rows) (maxDate rows)
    rw [← ediRows_map_date rows] at hc
    exact (List.chain'_map _).mp hc

theorem series_repair_continuous_witness :
    ∃ lo hi : ℤ,
      (∃ r ∈ ([⟨2, "A", 1, 1⟩, ⟨0, "A", 2, 3⟩] : List Row), r.date = lo) ∧
      (∃ r ∈ ([⟨2, "A", 1, 1⟩, ⟨0, "A", 2, 3⟩] : List Row), r.date = hi) ∧
      (∀ r ∈ ([⟨2, "A", 1, 1⟩, ⟨0, "A", 2, 3⟩] : List Row),
        lo ≤ r.date ∧ r.date ≤ hi) ∧
      ([⟨0, "A", 2, 3⟩, ⟨1, "A", 0, 3⟩, ⟨2, "A", 1, 1⟩] : List Row).map (·.date) =
        dateRange lo hi ∧
      ([⟨0, "A", 2, 3⟩, ⟨1, "A", 0, 3⟩, ⟨2, "A", 1, 1⟩] : List Row).length =
        (hi - lo).toNat + 1 ∧
      List.Chain' (fun a b => a.date + 1 = b.date)
        ([⟨0, "A", 2, 3⟩, ⟨1, "A", 0, 3⟩, ⟨2, "A", 1, 1⟩] : List Row) :=
  series_repair_continuous (by decide) (by decide)

/-! ## Claim theorems: error behaviour and totality (C8, C5) -/

theorem mem_extendSeries_elim {s : List Row} {p : String} {t : ℤ} {r : Row}
    (hr : r ∈ extendSeries s p t) : r ∈ s ∨ r ∈ extTail s p t := by
  rw [extendSeries] at hr
  split at hr
  · split at hr
    · exact List.mem_append.mp hr
    · exact Or.inl hr
  · exact Or.inl hr

theorem exists_min_row_ediRows {rows : List Row} (hne : rows ≠ []) :
    ∃ r ∈ ediRows rows, r.date = minDate rows := by
  have hmem : minDate rows ∈ (ediRows rows).map (·.date) := by
    rw [ediRows_map_date]
    exact mem_dateRange.mpr ⟨le_rfl, minDate_le_maxDate hne⟩
  obtain ⟨r, hr, hd⟩ := List.mem_map.mp hmem
  exact ⟨r, hr, hd⟩

theorem ediRows_date_ge {rows : List Row} {r : Row} (hr : r ∈ ediRows rows) :
    minDate rows ≤ r.date := by
  have hm : r.date ∈ (ediRows rows).map (·.date) := List.mem_map_of_mem _ hr
  rw [ediRows_map_date] at hm
  exact (mem_dateRange.mp hm).1

theorem extTail_date_ge {s : List Row} {p : String} {t : ℤ} {r : Row}
    (hr : r ∈ extTail s p t) : maxDate s + 1 ≤ r.date := by
  have hm : r.date ∈ (extTail s p t).map (·.date) := List.mem_map_of_mem _ hr
  rw [extTail_map_date] at hm
  exact (mem_dateRange.mp hm).1

/-- The trailing-window selection of lines 57-62 comes up empty exactly when
the target date precedes every date of the (filtered) history. -/
theorem sel_isEmpty_iff {rows : List Row} {p : String} {t : ℤ} (hne : rows ≠ []) :
    (((extendSeries (ediRows rows) p t).filter
      (fun r => decide (r.date ≤ t))).isEmpty = true) ↔
      ¬ ∃ r ∈ rows, r.date ≤ t := by
  rw [List.isEmpty_iff, List.filter_eq_nil_iff]
  constructor
  · rintro hall ⟨r, hr, hrt⟩
    obtain ⟨r0, hr0, hd0⟩ := exists_min_row_ediRows hne
    have hr0e : r0 ∈ extendSeries (ediRows rows) p t :=
      subset_extendSeries _ _ _ hr0
    have hle : r0.date ≤ t := by
      rw [hd0]
      exact le_trans (minDate_le hr) hrt
    exact hall r0 hr0e (by simpa using hle)
  · intro hnex r hr hdec
    apply hnex
    have hrt : r.date ≤ t := by simpa using hdec
    obtain ⟨r1, hr1, hd1⟩ := minDate_mem hne
    refine ⟨r1, hr1, ?_⟩
    rw [hd1]
    rcases mem_extendSeries_elim hr with hs | htl
    · exact le_trans (ediRows_date_ge hs) hrt
    · have h2 := extTail_date_ge htl
      have hmax : maxDate (ediRows rows) = maxDate rows :=
        maxDate_of_map_date (minDate_le_maxDate hne) (ediRows_map_date rows)
      have h3 := minDate_le_maxDate hne
      omega

/-- **C8.**  Under the reachability conditions of the repair step (the
filtered history is non-empty and has no duplicate dates, so neither the
`NoHistoryError` nor the duplicate-reindex error fires), `build_features`
raises `DateTooEarlyError` if and only if no record of the category's
history has a date at or before the target date — i.e. exactly when the
target date precedes the category's earliest record. -/
theorem bf_dateTooEarly_iff {h : List Row} {p : String} {t : ℤ}
    (hne : h.filter (fun r => r.category == p) ≠ [])
    (hnd : ((h.filter (fun r => r.category == p)).map (·.date)).Nodup) :
    build_features h p t = .error .dateTooEarly ↔
      ¬ ∃ r ∈ h.filter (fun r => r.category == p), r.date ≤ t := by
  rw [bf_cases hne hnd]
  dsimp only
  by_cases hsel : ((extendSeries (ediRows (h.filter (fun r => r.category == p))) p t).filter
      (fun r => decide (r.date ≤ t))).isEmpty = true
  · rw [if_pos hsel]
    exact iff_of_true rfl ((sel_isEmpty_iff hne).mp hsel)
  · rw [if_neg hsel]
    exact iff_of_false (by simp) ((not_iff_not.mpr (sel_isEmpty_iff hne)).mp hsel)

theorem bf_dateTooEarly_iff_witness :
    build_features [⟨5, "A", 1, 1⟩] "A" 4 = .error .dateTooEarly := by
  rw [bf_dateTooEarly_iff (by decide) (by decide)]
  decide

/-- **C5 counterexample.**  A history with two records on the same calendar
date (a degenerate-but-valid input per the claim) makes pandas `reindex`
raise "cannot reindex on an axis with duplicate labels" — `build_features`
does not terminate normally with a feature record, even though the target
date is in range. -/
theorem bf_duplicate_dates_error :
    build_features [⟨0, "A", 1, 1⟩, ⟨0, "A", 2, 1⟩, ⟨3, "A", 1, 1⟩] "A" 3 =
      .error .dupIndex := by
  decide

/-- **C5 (amended).**  For every history whose per-category slice is
non-empty and has at most one record per calendar date — sortedness is not
required — and every target date not earlier than the category's earliest
record, `build_features` returns a feature record: no error branch fires and
every degenerate condition resolves to a fallback value. -/
theorem build_features_total {h : List Row} {p : String} {t : ℤ}
    (hne : h.filter (fun r => r.category == p) ≠ [])
    (hnd : ((h.filter (fun r => r.category == p)).map (·.date)).Nodup)
    (hmin : ∃ r ∈ h.filter (fun r => r.category == p), r.date ≤ t) :
    ∃ f, build_features h p t = .ok f := by
  rw [bf_cases hne hnd]
  dsimp only
  have hsel : ¬ (((extendSeries (ediRows (h.filter (fun r => r.category == p))) p t).filter
      (fun r => decide (r.date ≤ t))).isEmpty = true) :=
    fun hs => (sel_isEmpty_iff hne).mp hs hmin
  rw [if_neg hsel]
  exact ⟨_, rfl⟩

theorem build_features_total_witness :
    ∃ f, build_features [⟨2, "A", 1, 1⟩, ⟨0, "A", 2, 3⟩] "A" 5 = .ok f :=
  build_features_total (by decide) (by decide) (by decide)

/-! ## Claim theorems: calendar features (C9) -/

theorem exists_ok_of_isOk {e a : Type} {x : Except e a} (h : x.isOk = true) :
    ∃ v, x = .ok v := by
  cases x with
  | error u => simp [Except.isOk, Except.toBool] at h
  | ok v => exact ⟨v, rfl⟩

/-- **C9.**  The five calendar features of a returned record are pure
functions of the target date: two successful invocations with the same
target date but arbitrary (different) histories and categories agree on
`day`, `month`, `dayofweek`, `is_weekend` and `week_of_year`; `dayofweek`
is the 0 = Monday convention (`(z + 3) mod 7` over days since the Thursday
1970-01-01), and `is_weekend` is `1` exactly when `dayofweek` is 5 or 6. -/
theorem calendar_pure {h1 h2 : List Row} {c1 c2 : String} {t : ℤ}
    {f1 f2 : Feats}
    (o1 : build_features h1 c1 t = .ok f1)
    (o2 : build_features h2 c2 t = .ok f2) :
    f1.day = f2.day ∧ f1.month = f2.month ∧ f1.dayofweek = f2.dayofweek ∧
    f1.is_weekend = f2.is_weekend ∧ f1.week_of_year = f2.week_of_year ∧
    f1.day = dayOfMonth t ∧ f1.month = monthOfDate t ∧
    f1.dayofweek = dayOfWeek t ∧
    f1.is_weekend = (if dayOfWeek t = 5 ∨ dayOfWeek t = 6 then 1 else 0) ∧
    f1.week_of_year = isoWeek t := by
  obtain ⟨s1, -, rfl⟩ := bf_ok_elim o1
  obtain ⟨s2, -, rfl⟩ := bf_ok_elim o2
  exact ⟨rfl, rfl, rfl, rfl, rfl, rfl, rfl, rfl, rfl, rfl⟩

theorem calendar_pure_witness :
    ∃ f1 f2 : Feats,
      build_features [⟨daysFromCivil 2024 3 2, "A", 1, 2⟩] "A"
        (daysFromCivil 2024 3 2) = .ok f1 ∧
      build_features [⟨daysFromCivil 2024 3 2 - 1, "B", 4, 1⟩,
        ⟨daysFromCivil 2024 3 2, "B", 2, 2⟩] "B"
        (daysFromCivil 2024 3 2) = .ok f2 ∧
      f1.dayofweek = 5 ∧ f1.is_weekend = 1 ∧
      f1.dayofweek = f2.dayofweek ∧ f1.is_weekend = f2.is_weekend := by
  obtain ⟨f1, h1⟩ := exists_ok_of_isOk
    (x := build_features [⟨daysFromCivil 2024 3 2, "A", 1, 2⟩] "A"
      (daysFromCivil 2024 3 2)) (by decide)
  obtain ⟨f2, h2⟩ := exists_ok_of_isOk
    (x := build_features [⟨daysFromCivil 2024 3 2 - 1, "B", 4, 1⟩,
      ⟨daysFromCivil 2024 3 2, "B", 2, 2⟩] "B" (daysFromCivil 2024 3 2)) (by decide)
  have hc := calendar_pure h1 h2
  refine ⟨f1, f2, h1, h2, ?_, ?_, hc.2.2.1, hc.2.2.2.1⟩
  · rw [hc.2.2.2.2.2.2.2.1]
    decide
  · rw [hc.2.2.2.2.2.2.2.2.1]
    decide

/-! ## Claim theorems: sanitization and finiteness (C3) -/

theorem ne_nan_of_isFin {e : EFloat} (h : e.isFin = true) : e ≠ .nan := by
  cases e <;> simp_all [EFloat.isFin]

theorem sanE_roll_mean_isFin (s : List ℚ) (n : ℕ) :
    (sanE (safe_roll_mean s n)).isFin = true := by
  rw [safe_roll_mean]
  split
  · rw [rollShiftMean]
    split
    · rfl
    · rfl
  · rfl

theorem listMean_nonneg {l : List ℚ} (h : ∀ x ∈ l, 0 ≤ x) : 0 ≤ listMean l := by
  rw [listMean]
  apply div_nonneg (List.sum_nonneg h)
  exact_mod_cast Nat.zero_le _

theorem sanE_ratio_isFin {qty : List ℚ} (h : ∀ x ∈ qty, 0 ≤ x) :
    (sanE (ratioToCat28 qty)).isFin = true := by
  rw [ratioToCat28]
  by_cases hlen : 1 ≤ qty.length
  · rw [if_pos hlen, if_pos hlen, rollShiftMean]
    split
    · rfl
    · have hm : 0 ≤ listMean (tailTake qty.dropLast 28) :=
        listMean_nonneg (fun x hx =>
          h x (List.dropLast_subset _ (List.drop_subset _ _ hx)))
      have hden : listMean (tailTake qty.dropLast 28) + 1 / 1000000 ≠ 0 :=
        ne_of_gt (add_pos_of_nonneg_of_pos hm (by norm_num))
      simp only [EFloat.addQ, EFloat.fdivE]
      rw [if_neg hden]
      rfl
  · rw [if_neg hlen, if_neg hlen]
    have hden : ((0 : ℚ) + 1 / 1000000) ≠ 0 := by norm_num
    simp only [EFloat.addQ, EFloat.fdivE]
    rw [if_neg hden]
    rfl

/-- **C3 counterexample.**  A reachable record that contains `+Infinity`
after the sanitization step: a category with recorded price `0` eight days
before a later record with price `5`, queried at the later date.  The claim
that every value of the returned record is finite is therefore false. -/
theorem bf_inf_escapes_sanitize :
    (build_features [⟨0, "A", 1, 0⟩, ⟨8, "A", 2, 5⟩] "A" 8).toOption.map
      (fun f => f.pct7.isFin) = some false := by
  decide

/-- **C3 (amended).**  For every input with nonnegative quantities (the
data model's constraint) on which `build_features` returns a record: no
value of the record is NaN — the `np.isnan` sweep catches every NaN the
statistics can produce — and every value except the price percent-change
feature is finite.  (The lag, std and EWM features are genuine rationals by
construction; the price percent-change can be `±Infinity`, see the
counterexample.)  Infinities are only possible in `pct7`. -/
theorem bf_no_nan {h : List Row} {p : String} {t : ℤ} {f : Feats}
    (hq : ∀ r ∈ h, 0 ≤ r.quantity)
    (hok : build_features h p t = .ok f) :
    f.mean7 ≠ .nan ∧ f.mean14 ≠ .nan ∧ f.mean28 ≠ .nan ∧
    f.pct7 ≠ .nan ∧ f.ratio28 ≠ .nan ∧
    f.mean7.isFin = true ∧ f.mean14.isFin = true ∧ f.mean28.isFin = true ∧
    f.ratio28.isFin = true := by
  obtain ⟨sel, hsub, rfl⟩ := bf_ok_elim hok
  have hqw : ∀ x ∈ (tailTake sel (HISTORY_DAYS + 1)).map (·.quantity), 0 ≤ x := by
    intro x hx
    obtain ⟨r, hr, rfl⟩ := List.mem_map.mp hx
    have hrext := hsub (List.drop_subset _ _ hr)
    refine extendSeries_qty_nonneg ?_ r hrext
    intro r0 hr0
    exact ediRows_qty_nonneg
      (fun r1 hr1 => hq r1 (List.mem_of_mem_filter hr1)) hr0
  have hr28 := sanE_ratio_isFin hqw
  exact ⟨ne_nan_of_isFin (sanE_roll_mean_isFin _ 7),
    ne_nan_of_isFin (sanE_roll_mean_isFin _ 14),
    ne_nan_of_isFin (sanE_roll_mean_isFin _ 28),
    sanE_ne_nan _, ne_nan_of_isFin hr28,
    sanE_roll_mean_isFin _ 7, sanE_roll_mean_isFin _ 14,
    sanE_roll_mean_isFin _ 28, hr28⟩

theorem bf_no_nan_witness :
    ∃ f, build_features [⟨0, "A", 2, 3⟩] "A" 1 = .ok f ∧
      f.ratio28.isFin = true ∧ f.pct7 ≠ .nan := by
  obtain ⟨f, hf⟩ := exists_ok_of_isOk
    (x := build_features [⟨0, "A", 2, 3⟩] "A" 1) (by decide)
  have hn := bf_no_nan (by decide) hf
  exact ⟨f, hf, hn.2.2.2.2.2.2.2.2, hn.2.2.2.1⟩

/-! ## Claim theorems: the HTTP-layer date guard (C10) -/

theorem extendSeries_dates_le {s : List Row} {p : String} {t D : ℤ}
    (hs : ∀ r ∈ s, r.date ≤ D) (ht : t ≤ D) :
    ∀ r ∈ extendSeries s p t, r.date ≤ D := by
  intro r hr
  rcases mem_extendSeries_elim hr with h1 | h2
  · exact hs r h1
  · have hm : r.date ∈ (extTail s p t).map (·.date) := List.mem_map_of_mem _ h2
    rw [extTail_map_date] at hm
    exact le_trans (mem_dateRange.mp hm).2 ht

/-- **C10.**  The `/predict` validation rejects (HTTP 400, an `.error`
result) every request whose start date or whose end date
`start + (n_days - 1)` lies outside `[MIN_DATE, MAX_DATE]`; on accepted
requests every enumerated target date lies in `[MIN_DATE, MAX_DATE]`, so
`build_features` is only invoked with targets no later than the dataset's
latest observed date, and consequently no row of a horizon-extended series
(whose observed rows are all dated at most `MAX_DATE`) can be dated after
`MAX_DATE`: the extension path past the global maximum date is unreachable
through this endpoint. -/
theorem predict_range_guard (minD maxD start nDays : ℤ) (cats : List String)
    (p : String) :
    ((¬ (minD ≤ start ∧ start ≤ maxD) ∨
      ¬ (minD ≤ start + (nDays - 1) ∧ start + (nDays - 1) ≤ maxD)) →
      ∀ ts, predictTargets minD maxD cats p start nDays ≠ .ok ts) ∧
    (∀ ts, predictTargets minD maxD cats p start nDays = .ok ts →
      ∀ t ∈ ts, minD ≤ t ∧ t ≤ maxD) ∧
    (∀ ts, predictTargets minD maxD cats p start nDays = .ok ts →
      ∀ t ∈ ts, ∀ s : List Row, (∀ r ∈ s, r.date ≤ maxD) →
        ∀ r ∈ extendSeries s p t, r.date ≤ maxD) := by
  have hmem : ∀ ts, predictTargets minD maxD cats p start nDays = .ok ts →
      0 < nDays ∧
      (minD ≤ start ∧ start ≤ maxD ∧ minD ≤ start + (nDays - 1) ∧
        start + (nDays - 1) ≤ maxD) ∧
      ts = (List.range nDays.toNat).map (fun (o : ℕ) => start + (o : ℤ)) := by
    intro ts hts
    rw [predictTargets] at hts
    split at hts
    · exact absurd hts (by simp)
    · next hA =>
      split at hts
      · exact absurd hts (by simp)
      · dsimp only at hts
        split at hts
        · exact absurd hts (by simp)
        · next hcond =>
          exact ⟨by omega, not_not.mp hcond, (Except.ok.inj hts).symm⟩
  have hbound : ∀ ts, predictTargets minD maxD cats p start nDays = .ok ts →
      ∀ t ∈ ts, minD ≤ t ∧ t ≤ maxD := by
    intro ts hts t htm
    obtain ⟨hn, ⟨h1, h2, h3, h4⟩, rfl⟩ := hmem ts hts
    obtain ⟨o, ho, rfl⟩ := List.mem_map.mp htm
    rw [List.mem_range] at ho
    omega
  refine ⟨?_, hbound, ?_⟩
  · intro hout ts hts
    obtain ⟨hn, ⟨h1, h2, h3, h4⟩, -⟩ := hmem ts hts
    rcases hout with hbad | hbad
    · exact hbad ⟨h1, h2⟩
    · exact hbad ⟨h3, h4⟩
  · intro ts hts t htm s hsD r hr
    exact extendSeries_dates_le hsD (hbound ts hts t htm).2 r hr

theorem predict_range_guard_witness :
    predictTargets 0 100 ["A"] "A" 99 3 ≠ .ok [99, 100, 101] ∧
    predictTargets 0 100 ["A"] "A" 5 3 = .ok [5, 6, 7] ∧
    (∀ t ∈ [(5 : ℤ), 6, 7], 0 ≤ t ∧ t ≤ 100) := by
  refine ⟨?_, by decide, ?_⟩
  · exact (predict_range_guard 0 100 99 3 ["A"] "A").1 (Or.inr (by decide)) _
  · intro t htm
    exact (predict_range_guard 0 100 5 3 ["A"] "A").2.1 _ (by decide) t htm
